import Mathlib

/-!
# QuantLib: no-arbitrage SABR model interface and Cholesky decomposition

A shallow embedding of

* `ql/experimental/volatility/noarbsabr.hpp` (class `NoArbSabrModel`), and
* `ql/Math/choleskydecomposition.cpp` (function `CholeskyDecomposition`),

with the C++ type `Real` read as an arbitrary linearly ordered field `R`
(instantiated with `ℝ` wherever analysis is needed, and with `ℚ` for evaluation).
-/

namespace QuantLib

/-! ## `NoArbSabrModel::Constants` (noarbsabr.hpp, lines 63-99) -/

namespace NoArbSabrModel.Constants

variable (R : Type) [LinearOrderedField R]

/-- Accuracy when inverting d0 to get phi. -/
def phi_accuracy : R := 1e-10
/-- Parameter bound `beta_min = 0.01`. -/
def beta_min : R := 0.01
/-- Parameter bound `beta_max = 0.99`. -/
def beta_max : R := 0.99
/-- Parameter bound `expiryTime_max = 30.0`. -/
def expiryTime_max : R := 30.0
/-- Parameter bound `sigmaI_min = 0.05`. -/
def sigmaI_min : R := 0.05
/-- Parameter bound `sigmaI_max = 1.00`. -/
def sigmaI_max : R := 1.00
/-- Parameter bound `nu_min = 0.0001`. -/
def nu_min : R := 0.0001
/-- Parameter bound `nu_max = 0.80`. -/
def nu_max : R := 0.80
/-- Parameter bound `rho_min = -0.9999`. -/
def rho_min : R := -0.9999
/-- Parameter bound `rho_max = 0.9999`. -/
def rho_max : R := 0.9999
/-- Cutoff for phi(d0) / tau. -/
def phiByTau_cutoff : R := 110.0
/-- Number of mc simulations in tabulated absorption probabilities. -/
def nsim : R := 2500000.0
/-- Small probability used for extrapolation of beta towards 1. -/
def tiny_prob : R := 1e-5
/-- Minimum strike allowed. -/
def strike_min : R := 0.00001
/-- Accuracy for the gauss lobatto integral. -/
def gl_accuracy : R := 1e-6
/-- Max iterations for the gauss lobatto integral. -/
def gl_max_iterations : Nat := 10000
/-- Accuracy when adjusting the model forward to match the given forward. -/
def forward_accuracy : R := 0.00001
/-- Step for searching the model forward in newton algorithm. -/
def forward_search_step : R := 0.0010

end NoArbSabrModel.Constants

/-! ## The object state of `NoArbSabrModel` (noarbsabr.hpp, lines 125-129) -/

/-- The data members of `NoArbSabrModel`, in declaration order.  `I` stands for
the type of the integrator handle (`boost::shared_ptr<GaussLobattoIntegral>`),
whose declaration is in another header. -/
structure NoArbSabrModel (R : Type) (I : Type) where
  expiryTime_ : R
  externalForward_ : R
  alpha_ : R
  beta_ : R
  nu_ : R
  rho_ : R
  absProb_ : R
  fmin_ : R
  fmax_ : R
  forward_ : R
  numericalIntegralOverP_ : R
  integrator_ : I

/-- Modelled from the spec: the value returned by the private member
`NoArbSabrModel::p`
(`Real p(const Real f, const bool checkNumericalLimits = true) const`), which the
header only declares.  Section 4.3 describes it as the evaluator of the
unnormalized density at forward level `f`: the value is a function of the
object state in which the call is made, the forward level and the flag.  What
the call may do to the object state is `PEffect`. -/
abbrev PFun (R : Type) (I : Type) : Type := NoArbSabrModel R I → R → Bool → R

namespace NoArbSabrModel

variable {R : Type} [LinearOrderedField R] {I : Type}

/-- Source: `Real density(const Real strike) const`:
`return p(strike, true) * (1 - absProb_) / numericalIntegralOverP_;` -/
def density (p : PFun R I) (m : NoArbSabrModel R I) (strike : R) : R :=
  p m strike true * (1 - m.absProb_) / m.numericalIntegralOverP_

/-- Source: `Real forward() const { return externalForward_; }` -/
def forward (m : NoArbSabrModel R I) : R := m.externalForward_
/-- Source: `Real expiryTime() const { return expiryTime_; }` -/
def expiryTime (m : NoArbSabrModel R I) : R := m.expiryTime_
/-- Source: `Real alpha() const { return alpha_; }` -/
def alpha (m : NoArbSabrModel R I) : R := m.alpha_
/-- Source: `Real beta() const { return beta_; }` -/
def beta (m : NoArbSabrModel R I) : R := m.beta_
/-- Source: `Real nu() const { return nu_; }` -/
def nu (m : NoArbSabrModel R I) : R := m.nu_
/-- Source: `Real rho() const { return rho_; }` -/
def rho (m : NoArbSabrModel R I) : R := m.rho_

/-- Source: `Real absorptionProbability() const { return absProb_; }` -/
def absorptionProbability (m : NoArbSabrModel R I) : R := m.absProb_

end NoArbSabrModel

/-! ## What a call of `p` may do to the object state -/

/-- Modelled from the spec: the parameters a domain error can name (section 4.1:
beta, expiryTime, the derived sigmaI, nu, rho, and alpha / forward). -/
inductive Parameter where
  | expiryTime
  | forward
  | alpha
  | beta
  | sigmaI
  | nu
  | rho
  deriving DecidableEq

/-- Modelled from the spec: which bound of the parameter was violated
(section 4.1: the error states "which parameter and which bound"). -/
inductive Bound where
  | lower
  | upper
  deriving DecidableEq

/-- Modelled from the spec: the error kinds of section 7. -/
inductive Error where
  | OutOfDomain (parameter : Parameter) (bound : Bound)
  | CalibrationFailure
  | IntegrationFailure
  deriving DecidableEq

/-- Modelled from the spec: a sequence of requirements, checked in order; the
first one that does not hold raises its error (section 4.1: the validator
"rejects out-of-range input before any computation"). -/
def requireAll : List (Bool × Error) → Except Error Unit
  | [] => .ok ()
  | (holds, e) :: rest => if holds then requireAll rest else .error e

/-- Modelled from the spec: the Bounds Validator of section 4.1, whose code (the
constructor body) is not in the header.  It fails with `OutOfDomain` if beta,
expiryTime, sigmaI, nu or rho falls outside its interval or if alpha / forward
is non-positive; the intervals are those of `Constants`, expiryTime ranging over
`(0, expiryTime_max]` (section 3: "> 0, <= 30") and
`sigmaI = alpha * forward^(beta-1)`.  `pow` stands for `std::pow`. -/
def validateBounds {R : Type} [LinearOrderedField R] (pow : R → R → R)
    (expiryTime forward alpha beta nu rho : R) : Except Error Unit :=
  requireAll
    [ (decide (NoArbSabrModel.Constants.beta_min R ≤ beta), .OutOfDomain .beta .lower),
      (decide (beta ≤ NoArbSabrModel.Constants.beta_max R), .OutOfDomain .beta .upper),
      (decide (0 < expiryTime), .OutOfDomain .expiryTime .lower),
      (decide (expiryTime ≤ NoArbSabrModel.Constants.expiryTime_max R),
        .OutOfDomain .expiryTime .upper),
      (decide (NoArbSabrModel.Constants.sigmaI_min R ≤ alpha * pow forward (beta - 1)),
        .OutOfDomain .sigmaI .lower),
      (decide (alpha * pow forward (beta - 1) ≤ NoArbSabrModel.Constants.sigmaI_max R),
        .OutOfDomain .sigmaI .upper),
      (decide (NoArbSabrModel.Constants.nu_min R ≤ nu), .OutOfDomain .nu .lower),
      (decide (nu ≤ NoArbSabrModel.Constants.nu_max R), .OutOfDomain .nu .upper),
      (decide (NoArbSabrModel.Constants.rho_min R ≤ rho), .OutOfDomain .rho .lower),
      (decide (rho ≤ NoArbSabrModel.Constants.rho_max R), .OutOfDomain .rho .upper),
      (decide (0 < alpha), .OutOfDomain .alpha .lower),
      (decide (0 < forward), .OutOfDomain .forward .lower) ]

/-- Modelled from the spec: the state derived once per instance (section 3): the
absorption probability, the integration support bounds, the internally
calibrated forward, the normalization integral, and the integrator used. -/
structure DerivedState (R : Type) (I : Type) where
  absProb : R
  fmin : R
  fmax : R
  forward : R
  numericalIntegralOverP : R
  integrator : I

/-- Modelled from the spec: `construct(expiryTime, forward, alpha, beta, nu, rho)`
of section 6, whose code (the constructor body) is not in the header.  Following
the control flow of section 2 it validates the parameters before anything else,
then derives the cached state (boundary interpolation, forward calibration and
normalization, sections 4.2-4.5, taken here as the parameter `derive`, which may
itself fail), and stores the six inputs unchanged next to the derived state. -/
def construct {R : Type} [LinearOrderedField R] {I : Type} (pow : R → R → R)
    (derive : R → R → R → R → R → R → Except Error (DerivedState R I))
    (expiryTime forward alpha beta nu rho : R) : Except Error (NoArbSabrModel R I) :=
  match validateBounds pow expiryTime forward alpha beta nu rho with
  | .error e => .error e
  | .ok () =>
    match derive expiryTime forward alpha beta nu rho with
    | .error e => .error e
    | .ok d =>
      .ok { expiryTime_ := expiryTime
            externalForward_ := forward
            alpha_ := alpha
            beta_ := beta
            nu_ := nu
            rho_ := rho
            absProb_ := d.absProb
            fmin_ := d.fmin
            fmax_ := d.fmax
            forward_ := d.forward
            numericalIntegralOverP_ := d.numericalIntegralOverP
            integrator_ := d.integrator }

/-- A result is a domain error, whatever parameter and bound it names. -/
def IsOutOfDomain {α : Type} : Except Error α → Prop
  | .error (.OutOfDomain _ _) => True
  | _ => False

/-! ## `CholeskyDecomposition` (ql/Math/choleskydecomposition.cpp) -/

/-- The class `Matrix` as `CholeskyDecomposition` uses it: the dimensions
`rows()` and `columns()` and the elements `m[i][j]`.  Its declaration
(`ql/Math/matrix.hpp`) is not among the sources; elements are addressed by a
pair of indices, and only indices inside the dimensions are ever read or
written by the function. -/
structure Matrix (R : Type) where
  rows : Nat
  columns : Nat
  elem : Nat → Nat → R

/-- Source: `Matrix result(size, size, 0.0)`: a matrix with every element equal
to `value`. -/
def Matrix.filled {R : Type} (rows columns : Nat) (value : R) : Matrix R :=
  { rows := rows, columns := columns, elem := fun _ _ => value }

/-- Source: an assignment `m[i][j] = value`. -/
def Matrix.set {R : Type} (m : Matrix R) (i j : Nat) (value : R) : Matrix R :=
  { m with elem := fun a b => if a = i ∧ b = j then value else m.elem a b }

/-- Source, lines 46-48, the loop
`for (int k=0; k<=int(i)-1; k++) sum -= result[i][k]*result[j][k];`
run over the given values of `k`, starting from `sum`. -/
def subtractProducts {R : Type} [LinearOrderedField R] (result : Matrix R) (i j : Nat) :
    List Nat → R → R
  | [], sum => sum
  | k :: ks, sum => subtractProducts result i j ks (sum - result.elem i k * result.elem j k)

/-- Source, lines 45-62: the body of the loop over `j`, for given `i` and `j`.
`QL_SQRT` and `QL_MAX` (macros of `ql/qldefines.hpp`, which is not among the
sources) are parameters; the theorems read them as the square root and the
maximum.  The division is the field's: `x / 0 = 0` in Lean. -/
def columnEntry {R : Type} [LinearOrderedField R] (QL_SQRT : R → R) (QL_MAX : R → R → R)
    (S : Matrix R) (flexible : Bool) (i j : Nat) (result : Matrix R) :
    Except String (Matrix R) :=
  let sum := subtractProducts result i j (List.range i) (S.elem i j)
  if i = j then
    if flexible || decide (sum > 0) then
      .ok (result.set i i (QL_SQRT (QL_MAX sum 0)))
    else
      .error "CholeskyDecomposition : input matrix is not positive definite"
  else
    .ok (result.set j i (if sum = 0 then 0 else sum / result.elem i i))

/-- Source, line 44: the loop `for (j=i; j<size; j++)`, run over the given values
of `j`; a failed requirement ends it. -/
def columnLoop {R : Type} [LinearOrderedField R] (QL_SQRT : R → R) (QL_MAX : R → R → R)
    (S : Matrix R) (flexible : Bool) (i : Nat) :
    List Nat → Matrix R → Except String (Matrix R)
  | [], result => .ok result
  | j :: js, result =>
    match columnEntry QL_SQRT QL_MAX S flexible i j result with
    | .error e => .error e
    | .ok result1 => columnLoop QL_SQRT QL_MAX S flexible i js result1

/-- Source, line 43: the loop `for (i=0; i<size; i++)`, run over the given values
of `i`; a failed requirement ends it. -/
def rowLoop {R : Type} [LinearOrderedField R] (QL_SQRT : R → R) (QL_MAX : R → R → R)
    (S : Matrix R) (flexible : Bool) (size : Nat) :
    List Nat → Matrix R → Except String (Matrix R)
  | [], result => .ok result
  | i :: is, result =>
    match columnLoop QL_SQRT QL_MAX S flexible i (List.range' i (size - i)) result with
    | .error e => .error e
    | .ok result1 => rowLoop QL_SQRT QL_MAX S flexible size is result1

/-- Source: `const Disposable<Matrix> CholeskyDecomposition(const Matrix &S, bool
flexible)`.  The block under `QL_EXTRA_SAFETY_CHECKS` is left out: the macro is
not defined in the default configuration (and the block names an undeclared
`matrix`). -/
def CholeskyDecomposition {R : Type} [LinearOrderedField R] (QL_SQRT : R → R)
    (QL_MAX : R → R → R) (S : Matrix R) (flexible : Bool) : Except String (Matrix R) :=
  let size := S.rows
  if size = S.columns then
    rowLoop QL_SQRT QL_MAX S flexible size (List.range size) (Matrix.filled size size 0)
  else
    .error "CholeskyDecomposition : input matrix is not a square matrix"

/-! ## Notions used to state the properties of `CholeskyDecomposition` -/

/-- The quadratic form `x ↦ xᵀ M x` of the leading `n × n` block of `M`. -/
def quadForm {R : Type} [LinearOrderedField R] (n : Nat) (M : Nat → Nat → R)
    (x : Nat → R) : R :=
  ∑ a in Finset.range n, ∑ b in Finset.range n, x a * M a b * x b

/-- The unit vector `e_i`. -/
def unitVec {R : Type} [LinearOrderedField R] (i : Nat) : Nat → R :=
  fun a => if a = i then 1 else 0

/-- What is left of `S` once the first `i` columns of `L` are accounted for:
`S[a][b] - Σ_{k<i} L[a][k] * L[b][k]`. -/
def residual {R : Type} [LinearOrderedField R] (S L : Nat → Nat → R) (i : Nat)
    (a b : Nat) : R :=
  S a b - ∑ k in Finset.range i, L a k * L b k

/-- The elements after the pass of the outer loop for column `i`: the diagonal
element becomes `d`, the elements below it `res a / d` (or `0` when `res a = 0`),
everything else stays. -/
def columnUpdate {R : Type} [LinearOrderedField R] (n i : Nat) (d : R) (res : Nat → R)
    (L : Nat → Nat → R) : Nat → Nat → R :=
  fun a b =>
    if b = i ∧ i ≤ a ∧ a < n then
      (if a = i then d else if res a = 0 then 0 else res a / d)
    else L a b

/-- The loop invariant at the head of the outer loop, before column `i`:
columns `i` and beyond are still zero, the part above the diagonal is zero, and
the columns done so far reproduce every element of `S` in the first `i` rows or
columns. -/
def CholeskyInv {R : Type} [LinearOrderedField R] (n : Nat) (S : Nat → Nat → R) (i : Nat)
    (L : Nat → Nat → R) : Prop :=
  (∀ a b, i ≤ b → L a b = 0)
    ∧ (∀ a b, a < b → L a b = 0)
    ∧ (∀ a b, a < n → b < n → (a < i ∨ b < i) → residual S L i a b = 0)

/-- Positive definiteness of the block with indices in `[i, n)`: the quadratic
form is positive at every vector that vanishes below `i` and has a non-zero
entry in `[i, n)`. -/
def IsPDFrom {R : Type} [LinearOrderedField R] (n i : Nat) (M : Nat → Nat → R) : Prop :=
  ∀ x : Nat → R, (∀ a, a < i → x a = 0) → (∃ a, i ≤ a ∧ a < n ∧ x a ≠ 0) →
    0 < quadForm n M x

/-! ## `DayCounter` and its comparison (Sources/daycounter.h) -/

/-- Source: `class DayCounter`, a purely abstract class; an object is given by
the implementations of its three virtual `const` member functions `name()`,
`dayCount(d1, d2)` and `yearFraction(d1, d2, refPeriodStart, refPeriodEnd)`.
`Date` and `Time` are declared in headers that are not among the sources and
are parameters. -/
structure DayCounter (Date : Type) (Time : Type) where
  name : String
  dayCount : Date → Date → Int
  yearFraction : Date → Date → Date → Date → Time

/-- Source: `inline bool operator==(const Handle<DayCounter>& h1, const
Handle<DayCounter>& h2) { return (h1->name() == h2->name()); }`.  The class
`Handle` is declared in `handle.h`, which is not among the sources: the type
`H` of handles and its `operator->` (`arrow`) are parameters. -/
def DayCounter.operatorEq {Date Time H : Type} (arrow : H → DayCounter Date Time)
    (h1 h2 : H) : Bool :=
  (arrow h1).name == (arrow h2).name

/-- Source: `inline bool operator!=(const Handle<DayCounter>& h1, const
Handle<DayCounter>& h2) { return (h1->name() != h2->name()); }`. -/
def DayCounter.operatorNe {Date Time H : Type} (arrow : H → DayCounter Date Time)
    (h1 h2 : H) : Bool :=
  (arrow h1).name != (arrow h2).name

/-! ## Sample inputs used to instantiate the theorems -/

/-- A derived state whose calibrated forward differs from the requested one. -/
def sampleDerived : DerivedState ℚ Unit :=
  { absProb := 1 / 100, fmin := 0, fmax := 2, forward := 101 / 100,
    numericalIntegralOverP := 1, integrator := () }

/-- A derivation step that always succeeds with `sampleDerived`. -/
def sampleDerive : ℚ → ℚ → ℚ → ℚ → ℚ → ℚ → Except Error (DerivedState ℚ Unit) :=
  fun _ _ _ _ _ _ => .ok sampleDerived

/-- The power function restricted to base 1 (where `1 ^ y = 1`); a stand-in for
`std::pow` on the sample inputs, all of which have forward 1. -/
def samplePow : ℚ → ℚ → ℚ := fun x _ => x

/-- The model built from expiryTime 5, forward 1, alpha 1/2, beta 1/2, nu 3/10,
rho -1/5 and `sampleDerived`. -/
def sampleModel : NoArbSabrModel ℚ Unit :=
  { expiryTime_ := 5, externalForward_ := 1, alpha_ := 1 / 2, beta_ := 1 / 2,
    nu_ := 3 / 10, rho_ := -1 / 5, absProb_ := 1 / 100, fmin_ := 0, fmax_ := 2,
    forward_ := 101 / 100, numericalIntegralOverP_ := 1, integrator_ := () }

/-- A model state with support `[0, 2]`, absorption probability 1/4 and
normalization integral 2. -/
def sampleState (R : Type) [LinearOrderedField R] : NoArbSabrModel R Unit :=
  { expiryTime_ := 5, externalForward_ := 1, alpha_ := 1 / 2, beta_ := 1 / 2,
    nu_ := 3 / 10, rho_ := -1 / 5, absProb_ := 1 / 4, fmin_ := 0, fmax_ := 2,
    forward_ := 1, numericalIntegralOverP_ := 2, integrator_ := () }

/-- A matrix with 2 rows and 3 columns. -/
def sampleRectangular : Matrix ℚ :=
  { rows := 2, columns := 3, elem := fun _ _ => 1 }

/-- Three day counters over dates and times given by integers and rationals:
two of them count actual days over a 360-day year, under the same name but one
with the end date included, and one counts nothing and has another name. -/
def sampleDayCounters : Fin 3 → DayCounter Int ℚ
  | 0 => { name := "act/360", dayCount := fun d1 d2 => d2 - d1,
           yearFraction := fun d1 d2 _ _ => ((d2 - d1 : Int) : ℚ) / 360 }
  | 1 => { name := "act/360", dayCount := fun d1 d2 => d2 - d1 + 1,
           yearFraction := fun d1 d2 _ _ => ((d2 - d1 + 1 : Int) : ℚ) / 360 }
  | 2 => { name := "none", dayCount := fun _ _ => 0, yearFraction := fun _ _ _ _ => 0 }

end QuantLib

/-! ## The link to Mathlib's matrices

`QuantLib.Matrix` addresses its elements by natural numbers; the notions
"symmetric", "positive (semi-)definite" and the matrix product are Mathlib's, on
matrices indexed by `Fin n`. -/

namespace Cholesky

/-- The leading `n × n` block of a `QuantLib.Matrix`, as a Mathlib matrix. -/
def toSquare {R : Type} (n : Nat) (M : QuantLib.Matrix R) : Matrix (Fin n) (Fin n) R :=
  Matrix.of fun i j => M.elem i.val j.val

/-- A vector indexed by `Fin n`, continued by zero. -/
def extend {R : Type} [Zero R] (n : Nat) (x : Fin n → R) : Nat → R :=
  fun a => if h : a < n then x ⟨a, h⟩ else 0

/-- The symmetric positive definite matrix `[[4, 2], [2, 5]]`. -/
def sampleDefinite (R : Type) [LinearOrderedField R] : QuantLib.Matrix R :=
  { rows := 2, columns := 2,
    elem := fun a b => if a = 0 ∧ b = 0 then 4 else if a = 1 ∧ b = 1 then 5 else 2 }

/-- The symmetric, singular, positive semi-definite matrix `[[1, 1], [1, 1]]`. -/
def sampleSingular (R : Type) [LinearOrderedField R] : QuantLib.Matrix R :=
  { rows := 2, columns := 2, elem := fun _ _ => 1 }

end Cholesky

namespace QuantLib

/-! ## Theorems -/

section Theorems

open NoArbSabrModel

/-- C1: for every model state and every strike, `density(strike)` is
`p(strike, true) * (1 - absProb_) / numericalIntegralOverP_`, the flag passed to
`p` being `true` and the two fields being the cached absorption probability (the
value `absorptionProbability()` returns) and the cached normalization integral. -/
theorem density_eq {R : Type} [LinearOrderedField R] {I : Type}
    (p : PFun R I) (m : NoArbSabrModel R I) (strike : R) :
    density p m strike
        = p m strike true * (1 - m.absProb_) / m.numericalIntegralOverP_
      ∧ m.absProb_ = absorptionProbability m := ⟨rfl, rfl⟩

/-- C5: the parameter bounds of `NoArbSabrModel::Constants` are the documented
ones (beta in [0.01, 0.99], expiryTime at most 30.0, sigmaI in [0.05, 1.0], nu in
[0.0001, 0.8], rho in [-0.9999, 0.9999]); every minimum is strictly below its
maximum and the rho interval is symmetric about 0. -/
theorem constants_admissible_intervals (R : Type) [LinearOrderedField R] :
    (Constants.beta_min R = 1 / 100 ∧ Constants.beta_max R = 99 / 100)
      ∧ Constants.expiryTime_max R = 30
      ∧ (Constants.sigmaI_min R = 5 / 100 ∧ Constants.sigmaI_max R = 1)
      ∧ (Constants.nu_min R = 1 / 10000 ∧ Constants.nu_max R = 8 / 10)
      ∧ (Constants.rho_min R = -(9999 / 10000) ∧ Constants.rho_max R = 9999 / 10000)
      ∧ (Constants.beta_min R < Constants.beta_max R
          ∧ Constants.sigmaI_min R < Constants.sigmaI_max R
          ∧ Constants.nu_min R < Constants.nu_max R
          ∧ Constants.rho_min R < Constants.rho_max R
          ∧ 0 < Constants.expiryTime_max R)
      ∧ Constants.rho_min R = -Constants.rho_max R := by
  simp only [Constants.beta_min, Constants.beta_max, Constants.expiryTime_max,
    Constants.sigmaI_min, Constants.sigmaI_max, Constants.nu_min, Constants.nu_max,
    Constants.rho_min, Constants.rho_max]
  norm_num

/-! ### Construction -/

/-- A sequence of requirements succeeds exactly when all of them hold. -/
theorem requireAll_ok_iff (cs : List (Bool × Error)) :
    requireAll cs = .ok () ↔ ∀ c ∈ cs, c.1 = true := by
  induction cs with
  | nil => simp [requireAll]
  | cons c cs ih =>
    obtain ⟨holds, e⟩ := c
    cases holds <;> simp [requireAll, ih]

/-- A failing sequence of requirements raises the error of one of them. -/
theorem requireAll_error_mem (cs : List (Bool × Error)) (e : Error)
    (h : requireAll cs = .error e) : ∃ c ∈ cs, c.2 = e := by
  induction cs with
  | nil => simp [requireAll] at h
  | cons c cs ih =>
    obtain ⟨holds, e1⟩ := c
    cases holds
    · simp only [requireAll, Bool.false_eq_true, if_false, Except.error.injEq] at h
      exact ⟨(false, e1), List.mem_cons_self _ _, h⟩
    · simp only [requireAll, if_true] at h
      obtain ⟨c, hc, hce⟩ := ih h
      exact ⟨c, List.mem_cons_of_mem _ hc, hce⟩

/-- The validator returns either success or a domain error. -/
theorem validateBounds_ok_or_outOfDomain {R : Type} [LinearOrderedField R]
    (pow : R → R → R) (T F a b n r : R) :
    validateBounds pow T F a b n r = .ok () ∨
      IsOutOfDomain (validateBounds pow T F a b n r) := by
  cases hv : validateBounds pow T F a b n r with
  | ok u => exact Or.inl rfl
  | error e =>
    right
    obtain ⟨c, hc, hce⟩ := requireAll_error_mem _ e hv
    simp only [List.mem_cons, List.mem_singleton, List.not_mem_nil, or_false] at hc
    rcases hc with h | h | h | h | h | h | h | h | h | h | h | h <;>
      (subst h; subst hce; trivial)

/-- The validator succeeds exactly on the admissible parameter tuples. -/
theorem validateBounds_ok_iff {R : Type} [LinearOrderedField R]
    (pow : R → R → R) (T F a b n r : R) :
    validateBounds pow T F a b n r = .ok () ↔
      (Constants.beta_min R ≤ b ∧ b ≤ Constants.beta_max R)
        ∧ (0 < T ∧ T ≤ Constants.expiryTime_max R)
        ∧ (Constants.sigmaI_min R ≤ a * pow F (b - 1)
            ∧ a * pow F (b - 1) ≤ Constants.sigmaI_max R)
        ∧ (Constants.nu_min R ≤ n ∧ n ≤ Constants.nu_max R)
        ∧ (Constants.rho_min R ≤ r ∧ r ≤ Constants.rho_max R)
        ∧ 0 < a ∧ 0 < F := by
  unfold validateBounds
  rw [requireAll_ok_iff]
  simp only [List.forall_mem_cons, List.not_mem_nil, decide_eq_true_eq]
  tauto

/-- Construction fails with a domain error as soon as validation does not
succeed. -/
theorem construct_outOfDomain_of_invalid {R : Type} [LinearOrderedField R] {I : Type}
    (pow : R → R → R) (derive : R → R → R → R → R → R → Except Error (DerivedState R I))
    (T F a b n r : R) (h : validateBounds pow T F a b n r ≠ .ok ()) :
    IsOutOfDomain (construct pow derive T F a b n r) := by
  rcases validateBounds_ok_or_outOfDomain pow T F a b n r with hv | hv
  · exact absurd hv h
  · unfold construct
    revert hv
    cases hc : validateBounds pow T F a b n r with
    | ok u => intro hv; exact hv.elim
    | error e => intro hv; cases e <;> exact hv

/-- A successful construction stores the six inputs. -/
theorem construct_ok_fields {R : Type} [LinearOrderedField R] {I : Type}
    (pow : R → R → R) (derive : R → R → R → R → R → R → Except Error (DerivedState R I))
    (T F a b n r : R) (m : NoArbSabrModel R I)
    (h : construct pow derive T F a b n r = .ok m) :
    m.expiryTime_ = T ∧ m.externalForward_ = F ∧ m.alpha_ = a ∧ m.beta_ = b
      ∧ m.nu_ = n ∧ m.rho_ = r := by
  unfold construct at h
  cases hv : validateBounds pow T F a b n r with
  | error e => rw [hv] at h; cases h
  | ok u =>
    rw [hv] at h
    cases hd : derive T F a b n r with
    | error e => rw [hd] at h; cases h
    | ok d =>
      rw [hd] at h
      simp only [Except.ok.injEq] at h
      subst h
      exact ⟨rfl, rfl, rfl, rfl, rfl, rfl⟩

/-- The sample inputs are admissible and construct `sampleModel`. -/
theorem construct_sample :
    construct samplePow sampleDerive 5 1 (1 / 2) (1 / 2) (3 / 10) (-1 / 5)
      = .ok sampleModel := by
  have hv : validateBounds samplePow 5 1 (1 / 2) (1 / 2) (3 / 10) (-1 / 5) = .ok () := by
    rw [validateBounds_ok_iff]
    simp only [Constants.beta_min, Constants.beta_max, Constants.expiryTime_max,
      Constants.sigmaI_min, Constants.sigmaI_max, Constants.nu_min, Constants.nu_max,
      Constants.rho_min, Constants.rho_max, samplePow]
    norm_num
  unfold construct
  rw [hv]
  rfl

/-! ### The claims about `NoArbSabrModel` -/

/-- C2: in every model state whose `numericalIntegralOverP_` is the integral of
`p(f, true)` over `[fmin_, fmax_]` and is non-zero, the integral of `density`
over `[fmin_, fmax_]` plus `absorptionProbability()` is exactly 1. -/
theorem density_integral_add_absorptionProbability {I : Type} (p : PFun ℝ I)
    (m : NoArbSabrModel ℝ I)
    (hN : m.numericalIntegralOverP_ = ∫ f in m.fmin_..m.fmax_, p m f true)
    (h0 : m.numericalIntegralOverP_ ≠ 0) :
    (∫ f in m.fmin_..m.fmax_, density p m f) + absorptionProbability m = 1 := by
  unfold density absorptionProbability
  rw [intervalIntegral.integral_div, intervalIntegral.integral_mul_const, ← hN]
  field_simp

/-- C2, instantiated: the constant unnormalized density 1 on `[0, 2]`. -/
theorem density_integral_add_absorptionProbability_witness :
    ((sampleState ℝ).numericalIntegralOverP_
        = ∫ f in (sampleState ℝ).fmin_..(sampleState ℝ).fmax_,
            (fun _ _ _ => (1 : ℝ) : PFun ℝ Unit) (sampleState ℝ) f true)
      ∧ (sampleState ℝ).numericalIntegralOverP_ ≠ 0
      ∧ (∫ f in (sampleState ℝ).fmin_..(sampleState ℝ).fmax_,
            density (fun _ _ _ => (1 : ℝ)) (sampleState ℝ) f)
          + absorptionProbability (sampleState ℝ) = 1 :=
  have hN : (sampleState ℝ).numericalIntegralOverP_
      = ∫ f in (sampleState ℝ).fmin_..(sampleState ℝ).fmax_,
          (fun _ _ _ => (1 : ℝ) : PFun ℝ Unit) (sampleState ℝ) f true := by
    simp [sampleState]
  have h0 : (sampleState ℝ).numericalIntegralOverP_ ≠ 0 := by
    simp [sampleState]
  ⟨hN, h0, density_integral_add_absorptionProbability _ (sampleState ℝ) hN h0⟩

/-- C3: `forward()` returns the externally supplied forward `externalForward_`,
and not the internally calibrated `forward_` whenever the two differ; on a
constructed model `forward()`, `expiryTime()`, `alpha()`, `beta()`, `nu()` and
`rho()` return the corresponding constructor inputs. -/
theorem accessors_return_constructor_inputs {R : Type} [LinearOrderedField R] {I : Type}
    (pow : R → R → R) (derive : R → R → R → R → R → R → Except Error (DerivedState R I))
    (T F a b n r : R) (m : NoArbSabrModel R I)
    (h : construct pow derive T F a b n r = .ok m) :
    (forward m = F ∧ expiryTime m = T ∧ alpha m = a ∧ beta m = b ∧ nu m = n ∧ rho m = r)
      ∧ (∀ s : NoArbSabrModel R I, forward s = s.externalForward_
          ∧ (s.forward_ ≠ s.externalForward_ → forward s ≠ s.forward_)) := by
  obtain ⟨h1, h2, h3, h4, h5, h6⟩ := construct_ok_fields pow derive T F a b n r m h
  refine ⟨⟨h2, h1, h3, h4, h5, h6⟩, fun s => ⟨rfl, fun hne heq => hne ?_⟩⟩
  exact heq.symm

/-- C3, instantiated: `sampleModel` has calibrated forward 101/100 and reports the
requested forward 1. -/
theorem accessors_return_constructor_inputs_witness :
    construct samplePow sampleDerive 5 1 (1 / 2) (1 / 2) (3 / 10) (-1 / 5) = .ok sampleModel
      ∧ sampleModel.forward_ ≠ sampleModel.externalForward_
      ∧ forward sampleModel = 1 ∧ forward sampleModel ≠ sampleModel.forward_ :=
  have hne : sampleModel.forward_ ≠ sampleModel.externalForward_ := by
    simp only [sampleModel]; norm_num
  have key := accessors_return_constructor_inputs samplePow sampleDerive 5 1 (1 / 2) (1 / 2)
    (3 / 10) (-1 / 5) sampleModel construct_sample
  ⟨construct_sample, hne, key.1.1, (key.2 sampleModel).2 hne⟩

/-- C4: construction fails with a domain error for beta = 0.0, beta = 1.0,
expiryTime = 0, expiryTime = 31, nu = 0.9 and rho = 1.0 (whatever the other
parameters are), and for every (alpha, beta, forward) whose
`sigmaI = alpha * forward^(beta-1)` lies outside `[sigmaI_min, sigmaI_max]`;
each of the six values lies outside the admissible interval that `Constants`
gives for it (for expiryTime the interval `(0, expiryTime_max]`). -/
theorem construct_fails_outOfDomain {R : Type} [LinearOrderedField R] {I : Type}
    (pow : R → R → R) (derive : R → R → R → R → R → R → Except Error (DerivedState R I)) :
    (∀ T F a n r : R, IsOutOfDomain (construct pow derive T F a 0.0 n r))
      ∧ (∀ T F a n r : R, IsOutOfDomain (construct pow derive T F a 1.0 n r))
      ∧ (∀ F a b n r : R, IsOutOfDomain (construct pow derive 0 F a b n r))
      ∧ (∀ F a b n r : R, IsOutOfDomain (construct pow derive 31 F a b n r))
      ∧ (∀ T F a b r : R, IsOutOfDomain (construct pow derive T F a b 0.9 r))
      ∧ (∀ T F a b n : R, IsOutOfDomain (construct pow derive T F a b n 1.0))
      ∧ (∀ T F a b n r : R,
          (a * pow F (b - 1) < Constants.sigmaI_min R
            ∨ Constants.sigmaI_max R < a * pow F (b - 1)) →
          IsOutOfDomain (construct pow derive T F a b n r))
      ∧ ((0.0 : R) ∉ Set.Icc (Constants.beta_min R) (Constants.beta_max R)
          ∧ (1.0 : R) ∉ Set.Icc (Constants.beta_min R) (Constants.beta_max R)
          ∧ (0 : R) ∉ Set.Ioc 0 (Constants.expiryTime_max R)
          ∧ (31 : R) ∉ Set.Ioc 0 (Constants.expiryTime_max R)
          ∧ (0.9 : R) ∉ Set.Icc (Constants.nu_min R) (Constants.nu_max R)
          ∧ (1.0 : R) ∉ Set.Icc (Constants.rho_min R) (Constants.rho_max R)) := by
  have hc : (0.0 : R) < Constants.beta_min R ∧ Constants.beta_max R < 1.0
      ∧ Constants.expiryTime_max R < 31 ∧ Constants.nu_max R < 0.9
      ∧ Constants.rho_max R < 1.0 := by
    simp only [Constants.beta_min, Constants.beta_max, Constants.expiryTime_max,
      Constants.nu_max, Constants.rho_max]
    norm_num
  obtain ⟨c1, c2, c3, c4, c5⟩ := hc
  refine ⟨?_, ?_, ?_, ?_, ?_, ?_, ?_, fun h => absurd h.1 (not_le.mpr c1),
    fun h => absurd h.2 (not_le.mpr c2), fun h => lt_irrefl 0 h.1,
    fun h => absurd h.2 (not_le.mpr c3), fun h => absurd h.2 (not_le.mpr c4),
    fun h => absurd h.2 (not_le.mpr c5)⟩
  · intro T F a n r
    apply construct_outOfDomain_of_invalid
    rw [ne_eq, validateBounds_ok_iff]
    intro h
    exact absurd h.1.1 (not_le.mpr c1)
  · intro T F a n r
    apply construct_outOfDomain_of_invalid
    rw [ne_eq, validateBounds_ok_iff]
    intro h
    exact absurd h.1.2 (not_le.mpr c2)
  · intro F a b n r
    apply construct_outOfDomain_of_invalid
    rw [ne_eq, validateBounds_ok_iff]
    intro h
    exact absurd h.2.1.1 (lt_irrefl 0)
  · intro F a b n r
    apply construct_outOfDomain_of_invalid
    rw [ne_eq, validateBounds_ok_iff]
    intro h
    exact absurd h.2.1.2 (not_le.mpr c3)
  · intro T F a b r
    apply construct_outOfDomain_of_invalid
    rw [ne_eq, validateBounds_ok_iff]
    intro h
    exact absurd h.2.2.2.1.2 (not_le.mpr c4)
  · intro T F a b n
    apply construct_outOfDomain_of_invalid
    rw [ne_eq, validateBounds_ok_iff]
    intro h
    exact absurd h.2.2.2.2.1.2 (not_le.mpr c5)
  · intro T F a b n r hs
    apply construct_outOfDomain_of_invalid
    rw [ne_eq, validateBounds_ok_iff]
    intro h
    rcases hs with hs | hs
    · exact absurd h.2.2.1.1 (not_le.mpr hs)
    · exact absurd h.2.2.1.2 (not_le.mpr hs)

/-- C4, instantiated: alpha = 2, forward = 1 gives sigmaI = 2 > 1, and the
construction fails although every other parameter is admissible. -/
theorem construct_fails_outOfDomain_witness :
    Constants.sigmaI_max ℚ < 2 * samplePow 1 (1 / 2 - 1)
      ∧ IsOutOfDomain (construct samplePow sampleDerive 5 1 2 (1 / 2) (3 / 10) (-1 / 5)) :=
  have hs : Constants.sigmaI_max ℚ < 2 * samplePow 1 (1 / 2 - 1) := by
    simp only [Constants.sigmaI_max, samplePow]; norm_num
  ⟨hs, (construct_fails_outOfDomain samplePow sampleDerive).2.2.2.2.2.2.1
    5 1 2 (1 / 2) (3 / 10) (-1 / 5) (Or.inr hs)⟩

section Algebra

open Finset

variable {R : Type} [LinearOrderedField R]

theorem sum_unitVec_mul (n i : Nat) (hi : i < n) (f : Nat → R) :
    ∑ a in range n, unitVec i a * f a = f i := by
  unfold unitVec
  simp only [ite_mul, one_mul, zero_mul]
  rw [Finset.sum_ite_eq' (range n) i f]
  simp [hi]

theorem sum_mul_unitVec (n i : Nat) (hi : i < n) (f : Nat → R) :
    ∑ a in range n, f a * unitVec i a = f i := by
  unfold unitVec
  simp only [mul_ite, mul_one, mul_zero]
  rw [Finset.sum_ite_eq' (range n) i f]
  simp [hi]

/-- Expansion of the quadratic form along a line in direction `e_i`. -/
theorem quadForm_add_unitVec (n : Nat) (M : Nat → Nat → R) (x : Nat → R) (t : R) (i : Nat)
    (hi : i < n) (hM : ∀ a, a < n → M a i = M i a) :
    quadForm n M (fun a => x a + t * unitVec i a)
      = quadForm n M x + 2 * t * (∑ b in range n, M i b * x b) + t ^ 2 * M i i := by
  unfold quadForm
  have e : ∀ a b, (x a + t * unitVec i a) * M a b * (x b + t * unitVec i b)
      = x a * M a b * x b + t * (unitVec i a * (M a b * x b))
        + t * ((x a * M a b) * unitVec i b)
        + t ^ 2 * (unitVec i a * (M a b * unitVec i b)) := by
    intro a b; ring
  simp only [e, Finset.sum_add_distrib, ← Finset.mul_sum]
  rw [sum_unitVec_mul n i hi, sum_unitVec_mul n i hi, sum_mul_unitVec n i hi]
  have h2 : ∑ a in range n, ∑ b in range n, x a * M a b * unitVec i b
      = ∑ b in range n, M i b * x b := by
    apply Finset.sum_congr rfl
    intro a ha
    rw [sum_mul_unitVec n i hi (fun b => x a * M a b), hM a (Finset.mem_range.mp ha)]
    ring
  rw [h2]
  ring

/-- Subtracting a rank-one term from the matrix. -/
theorem quadForm_sub_rankOne (n : Nat) (M : Nat → Nat → R) (u x : Nat → R) :
    quadForm n (fun a b => M a b - u a * u b) x
      = quadForm n M x - (∑ a in range n, x a * u a) ^ 2 := by
  unfold quadForm
  have e : ∀ a b, x a * (M a b - u a * u b) * x b
      = x a * M a b * x b - (x a * u a) * (x b * u b) := by
    intro a b; ring
  simp only [e, Finset.sum_sub_distrib, ← Finset.mul_sum, ← Finset.sum_mul]
  ring

theorem quadForm_unitVec (n : Nat) (M : Nat → Nat → R) (i : Nat) (hi : i < n) :
    quadForm n M (unitVec i) = M i i := by
  unfold quadForm
  simp only [mul_assoc, ← Finset.mul_sum]
  rw [sum_unitVec_mul n i hi, sum_mul_unitVec n i hi]

theorem quadForm_congr (n : Nat) (M N : Nat → Nat → R) (x y : Nat → R)
    (hM : ∀ a b, a < n → b < n → M a b = N a b) (hx : ∀ a, a < n → x a = y a) :
    quadForm n M x = quadForm n N y := by
  unfold quadForm
  apply Finset.sum_congr rfl
  intro a ha
  apply Finset.sum_congr rfl
  intro b hb
  rw [hM a b (mem_range.mp ha) (mem_range.mp hb), hx a (mem_range.mp ha), hx b (mem_range.mp hb)]

end Algebra
/-! ### One elimination step on a quadratic form -/

section Elimination

open Finset

variable {R : Type} [LinearOrderedField R]

/-- The elimination step as a change of variable: subtracting the rank-one term
built from row `i` amounts to evaluating the form on a shifted vector. -/
theorem quadForm_eliminate (n : Nat) (M : Nat → Nat → R) (i : Nat) (hi : i < n)
    (hM : ∀ a b, a < n → b < n → M a b = M b a) (d : R) (hd : d * d = M i i)
    (hd0 : d ≠ 0) (x : Nat → R) :
    quadForm n (fun a b => M a b - (M i a / d) * (M i b / d)) x
      = quadForm n M
          (fun a => x a + (-(∑ b in range n, M i b * x b) / M i i) * unitVec i a) := by
  rw [quadForm_sub_rankOne, quadForm_add_unitVec n M x _ i hi (fun c hc => hM c i hc hi)]
  have hp : M i i ≠ 0 := by rw [← hd]; exact mul_ne_zero hd0 hd0
  have hs : ∑ a in range n, x a * (M i a / d) = (∑ b in range n, M i b * x b) / d := by
    rw [Finset.sum_div]
    apply Finset.sum_congr rfl
    intro a _
    ring
  rw [hs, ← hd]
  field_simp
  ring

/-- The pivot of a block that is positive definite from `i` on is positive. -/
theorem isPDFrom_pivot_pos {n i : Nat} {M : Nat → Nat → R} (h : IsPDFrom n i M)
    (hi : i < n) : 0 < M i i := by
  have := h (unitVec i) (fun a ha => by simp [unitVec, Nat.ne_of_lt ha])
    ⟨i, le_refl i, hi, by simp [unitVec]⟩
  rwa [quadForm_unitVec n M i hi] at this

/-- Elimination keeps the block positive definite on the remaining indices. -/
theorem isPDFrom_eliminate {n i : Nat} {M : Nat → Nat → R} (h : IsPDFrom n i M)
    (hi : i < n) (hM : ∀ a b, a < n → b < n → M a b = M b a) (d : R)
    (hd : d * d = M i i) (hd0 : d ≠ 0) :
    IsPDFrom n (i + 1) (fun a b => M a b - (M i a / d) * (M i b / d)) := by
  intro x hx0 hx1
  rw [quadForm_eliminate n M i hi hM d hd hd0 x]
  apply h
  · intro a ha
    have : a ≠ i := Nat.ne_of_lt ha
    simp [unitVec, this, hx0 a (Nat.lt_succ_of_lt ha)]
  · obtain ⟨a, ha1, ha2, ha3⟩ := hx1
    have : a ≠ i := by omega
    exact ⟨a, by omega, ha2, by simpa [unitVec, this] using ha3⟩

end Elimination
/-! ### The loops of `CholeskyDecomposition` -/

section Loops

open Finset

variable {R : Type} [LinearOrderedField R]

theorem subtractProducts_append (r : Matrix R) (i j : Nat) (ks ls : List Nat) (s : R) :
    subtractProducts r i j (ks ++ ls) s
      = subtractProducts r i j ls (subtractProducts r i j ks s) := by
  induction ks generalizing s with
  | nil => rfl
  | cons k ks ih => exact ih _

/-- The innermost loop computes `sum - Σ_{k<m} result[i][k] * result[j][k]`. -/
theorem subtractProducts_range (r : Matrix R) (i j m : Nat) (s : R) :
    subtractProducts r i j (List.range m) s
      = s - ∑ k in range m, r.elem i k * r.elem j k := by
  induction m with
  | zero => simp [subtractProducts]
  | succ m ih =>
    rw [List.range_succ, subtractProducts_append, ih, Finset.sum_range_succ]
    simp only [subtractProducts]
    ring

/-- The value of `sum` when the branch on `i == j` is reached. -/
theorem subtractProducts_eq_residual (S r : Matrix R) (i j : Nat) :
    subtractProducts r i j (List.range i) (S.elem i j) = residual S.elem r.elem i i j := by
  rw [subtractProducts_range]
  rfl

/-- The residual only reads the columns below `i`. -/
theorem residual_congr (S L L1 : Nat → Nat → R) (i a b : Nat)
    (h : ∀ c k, k < i → L1 c k = L c k) :
    residual S L1 i a b = residual S L i a b := by
  unfold residual
  congr 1
  apply Finset.sum_congr rfl
  intro k hk
  rw [h a k (mem_range.mp hk), h b k (mem_range.mp hk)]

/-- The loop over `j`, from a row `j0` below the diagonal on. -/
theorem columnLoop_below (sq : R → R) (S : Matrix R) (flexible : Bool) (i : Nat) (m : Nat) :
    ∀ (j0 : Nat) (r : Matrix R), i < j0 →
      ∃ r1 : Matrix R, columnLoop sq max S flexible i (List.range' j0 m) r = .ok r1
        ∧ r1.rows = r.rows ∧ r1.columns = r.columns
        ∧ ∀ a b, r1.elem a b =
            if b = i ∧ j0 ≤ a ∧ a < j0 + m then
              (if residual S.elem r.elem i i a = 0 then 0
                else residual S.elem r.elem i i a / r.elem i i)
            else r.elem a b := by
  induction m with
  | zero =>
    intro j0 r _
    refine ⟨r, rfl, rfl, rfl, ?_⟩
    intro a b
    have : ¬ (b = i ∧ j0 ≤ a ∧ a < j0 + 0) := by omega
    rw [if_neg this]
  | succ m ih =>
    intro j0 r hj
    have hne : i ≠ j0 := Nat.ne_of_lt hj
    have hentry : columnEntry sq max S flexible i j0 r
        = .ok (r.set j0 i (if residual S.elem r.elem i i j0 = 0 then 0
            else residual S.elem r.elem i i j0 / r.elem i i)) := by
      unfold columnEntry
      simp only [subtractProducts_eq_residual, if_neg hne]
    obtain ⟨r1, h1, h2, h3, h4⟩ := ih (j0 + 1)
      (r.set j0 i (if residual S.elem r.elem i i j0 = 0 then 0
            else residual S.elem r.elem i i j0 / r.elem i i)) (Nat.lt_succ_of_lt hj)
    refine ⟨r1, ?_, h2, h3, ?_⟩
    · simp only [List.range', columnLoop, hentry]
      exact h1
    · intro a b
      rw [h4 a b]
      have hres : ∀ c, residual S.elem
          (r.set j0 i (if residual S.elem r.elem i i j0 = 0 then 0
            else residual S.elem r.elem i i j0 / r.elem i i)).elem i i c
          = residual S.elem r.elem i i c := by
        intro c
        apply residual_congr
        intro c k hk
        have : ¬ (c = j0 ∧ k = i) := by omega
        simp only [Matrix.set, if_neg this]
      have hii : (r.set j0 i (if residual S.elem r.elem i i j0 = 0 then 0
            else residual S.elem r.elem i i j0 / r.elem i i)).elem i i = r.elem i i := by
        have : ¬ (i = j0 ∧ i = i) := by omega
        exact if_neg this
      rw [hres, hii]
      by_cases hb : b = i
      · by_cases ha : a = j0
        · subst hb; subst ha
          have c1 : ¬ (b = b ∧ a + 1 ≤ a ∧ a < a + 1 + m) := by omega
          have c2 : (b = b ∧ a ≤ a ∧ a < a + (m + 1)) := by omega
          rw [if_neg c1, if_pos c2]
          simp only [Matrix.set, and_self, if_true]
        · by_cases hr : j0 + 1 ≤ a ∧ a < j0 + 1 + m
          · have c1 : (b = i ∧ j0 + 1 ≤ a ∧ a < j0 + 1 + m) := ⟨hb, hr⟩
            have c2 : (b = i ∧ j0 ≤ a ∧ a < j0 + (m + 1)) := by omega
            rw [if_pos c1, if_pos c2]
          · have c1 : ¬ (b = i ∧ j0 + 1 ≤ a ∧ a < j0 + 1 + m) := fun h => hr h.2
            have c2 : ¬ (b = i ∧ j0 ≤ a ∧ a < j0 + (m + 1)) := by omega
            have c3 : ¬ (a = j0 ∧ b = i) := fun h => ha h.1
            rw [if_neg c1, if_neg c2]
            simp only [Matrix.set, if_neg c3]
      · have c1 : ¬ (b = i ∧ j0 + 1 ≤ a ∧ a < j0 + 1 + m) := fun h => hb h.1
        have c2 : ¬ (b = i ∧ j0 ≤ a ∧ a < j0 + (m + 1)) := fun h => hb h.1
        have c3 : ¬ (a = j0 ∧ b = i) := fun h => hb h.2
        rw [if_neg c1, if_neg c2]
        simp only [Matrix.set, if_neg c3]

end Loops
/-! ### One pass of the outer loop -/

section Column

open Finset

variable {R : Type} [LinearOrderedField R]

/-- A pass of the outer loop whose pivot requirement holds performs
`columnUpdate`. -/
theorem columnLoop_ok (sq : R → R) (S : Matrix R) (flexible : Bool) (n i : Nat)
    (r : Matrix R) (hi : i < n)
    (hp : flexible = true ∨ 0 < residual S.elem r.elem i i i) :
    ∃ r1 : Matrix R, columnLoop sq max S flexible i (List.range' i (n - i)) r = .ok r1
      ∧ r1.rows = r.rows ∧ r1.columns = r.columns
      ∧ r1.elem = columnUpdate n i (sq (max (residual S.elem r.elem i i i) 0))
          (residual S.elem r.elem i i) r.elem := by
  obtain ⟨m, hm⟩ : ∃ m, n - i = m + 1 := ⟨n - i - 1, by omega⟩
  have hcond : (flexible || decide (residual S.elem r.elem i i i > 0)) = true := by
    rcases hp with h | h
    · simp [h]
    · simp [h]
  have hentry : columnEntry sq max S flexible i i r
      = .ok (r.set i i (sq (max (residual S.elem r.elem i i i) 0))) := by
    unfold columnEntry
    simp only [subtractProducts_eq_residual, hcond, if_true]
  obtain ⟨r1, h1, h2, h3, h4⟩ := columnLoop_below sq S flexible i m (i + 1)
    (r.set i i (sq (max (residual S.elem r.elem i i i) 0))) (Nat.lt_succ_self i)
  refine ⟨r1, ?_, h2, h3, ?_⟩
  · rw [hm]
    simp only [List.range', columnLoop, hentry]
    exact h1
  · funext a b
    rw [h4 a b]
    have hres : ∀ c, residual S.elem
        (r.set i i (sq (max (residual S.elem r.elem i i i) 0))).elem i i c
        = residual S.elem r.elem i i c := by
      intro c
      apply residual_congr
      intro c k hk
      have : ¬ (c = i ∧ k = i) := by omega
      exact if_neg this
    have hii : (r.set i i (sq (max (residual S.elem r.elem i i i) 0))).elem i i
        = sq (max (residual S.elem r.elem i i i) 0) := by
      have : (i = i ∧ i = i) := ⟨rfl, rfl⟩
      exact if_pos this
    rw [hres, hii]
    unfold columnUpdate
    by_cases hb : b = i
    · by_cases ha : a = i
      · have c1 : ¬ (b = i ∧ i + 1 ≤ a ∧ a < i + 1 + m) := by omega
        have c2 : (b = i ∧ i ≤ a ∧ a < n) := by omega
        have c3 : (a = i ∧ b = i) := ⟨ha, hb⟩
        rw [if_neg c1, if_pos c2, if_pos ha]
        exact if_pos c3
      · by_cases hr : i + 1 ≤ a ∧ a < i + 1 + m
        · have c1 : (b = i ∧ i + 1 ≤ a ∧ a < i + 1 + m) := ⟨hb, hr⟩
          have c2 : (b = i ∧ i ≤ a ∧ a < n) := by omega
          rw [if_pos c1, if_pos c2, if_neg ha]
        · have c1 : ¬ (b = i ∧ i + 1 ≤ a ∧ a < i + 1 + m) := fun h => hr h.2
          have c2 : ¬ (b = i ∧ i ≤ a ∧ a < n) := by omega
          have c3 : ¬ (a = i ∧ b = i) := fun h => ha h.1
          rw [if_neg c1, if_neg c2]
          exact if_neg c3
    · have c1 : ¬ (b = i ∧ i + 1 ≤ a ∧ a < i + 1 + m) := fun h => hb h.1
      have c2 : ¬ (b = i ∧ i ≤ a ∧ a < n) := fun h => hb h.1
      have c3 : ¬ (a = i ∧ b = i) := fun h => hb h.2
      rw [if_neg c1, if_neg c2]
      exact if_neg c3

/-- A pass of the outer loop whose pivot requirement fails raises the error. -/
theorem columnLoop_error (sq : R → R) (S : Matrix R) (n i : Nat) (r : Matrix R)
    (hi : i < n) (hp : ¬ 0 < residual S.elem r.elem i i i) :
    columnLoop sq max S false i (List.range' i (n - i)) r
      = .error "CholeskyDecomposition : input matrix is not positive definite" := by
  obtain ⟨m, hm⟩ : ∃ m, n - i = m + 1 := ⟨n - i - 1, by omega⟩
  have hentry : columnEntry sq max S false i i r
      = .error "CholeskyDecomposition : input matrix is not positive definite" := by
    unfold columnEntry
    simp only [subtractProducts_eq_residual, if_true, Bool.false_or, gt_iff_lt,
      decide_eq_true_eq, if_neg hp]
  rw [hm]
  simp only [List.range', columnLoop, hentry]

/-- The residual after the pass for column `i`. -/
theorem residual_columnUpdate (S L : Nat → Nat → R) (n i : Nat) (d : R) (res : Nat → R)
    (a b : Nat) :
    residual S (columnUpdate n i d res L) (i + 1) a b
      = residual S L i a b
        - columnUpdate n i d res L a i * columnUpdate n i d res L b i := by
  have h : residual S (columnUpdate n i d res L) i a b = residual S L i a b := by
    apply residual_congr
    intro c k hk
    have : ¬ (k = i ∧ i ≤ c ∧ c < n) := by omega
    exact if_neg this
  rw [← h]
  unfold residual
  rw [Finset.sum_range_succ]
  ring

theorem residual_symm (S L : Nat → Nat → R) (n i : Nat)
    (hS : ∀ a b, a < n → b < n → S a b = S b a) (a b : Nat) (ha : a < n) (hb : b < n) :
    residual S L i a b = residual S L i b a := by
  unfold residual
  rw [hS a b ha hb]
  congr 1
  apply Finset.sum_congr rfl
  intro k _
  ring

/-- The new column times the new diagonal element gives row `i` of the
residual, provided the diagonal element squares to the pivot and vanishes only
when that row does. -/
theorem columnUpdate_mul_diag (S L : Nat → Nat → R) (n i : Nat)
    (hinv : CholeskyInv n S i L) (hi : i < n) (d : R)
    (hd : d * d = residual S L i i i)
    (hrow : d = 0 → ∀ a, a < n → residual S L i i a = 0) (a : Nat) (ha : a < n) :
    columnUpdate n i d (residual S L i i) L a i * d = residual S L i i a := by
  obtain ⟨h1, _, h3⟩ := hinv
  unfold columnUpdate
  by_cases hai : i ≤ a
  · have c : (i = i ∧ i ≤ a ∧ a < n) := ⟨rfl, hai, ha⟩
    rw [if_pos c]
    by_cases hae : a = i
    · rw [if_pos hae, hae]; exact hd
    · rw [if_neg hae]
      by_cases hz : residual S L i i a = 0
      · rw [if_pos hz, hz, zero_mul]
      · rw [if_neg hz]
        have hd0 : d ≠ 0 := fun h => hz (hrow h a ha)
        field_simp
  · have c : ¬ (i = i ∧ i ≤ a ∧ a < n) := fun h => hai h.2.1
    rw [if_neg c, h1 a i (le_refl i), zero_mul]
    exact (h3 i a hi ha (Or.inr (by omega))).symm

/-- The invariant is re-established by the pass for column `i`. -/
theorem choleskyInv_step (S L : Nat → Nat → R) (n i : Nat)
    (hS : ∀ a b, a < n → b < n → S a b = S b a)
    (hinv : CholeskyInv n S i L) (hi : i < n) (d : R)
    (hd : d * d = residual S L i i i)
    (hrow : d = 0 → ∀ a, a < n → residual S L i i a = 0) :
    CholeskyInv n S (i + 1) (columnUpdate n i d (residual S L i i) L) := by
  have hmul := columnUpdate_mul_diag S L n i hinv hi d hd hrow
  obtain ⟨h1, h2, h3⟩ := hinv
  have hdiag : columnUpdate n i d (residual S L i i) L i i = d := by
    unfold columnUpdate
    have c : (i = i ∧ i ≤ i ∧ i < n) := ⟨rfl, le_refl i, hi⟩
    rw [if_pos c, if_pos rfl]
  have hup : ∀ a, a < i → columnUpdate n i d (residual S L i i) L a i = 0 := by
    intro a ha
    unfold columnUpdate
    have c : ¬ (i = i ∧ i ≤ a ∧ a < n) := by omega
    rw [if_neg c]
    exact h1 a i (le_refl i)
  refine ⟨?_, ?_, ?_⟩
  · intro a b hb
    unfold columnUpdate
    have c : ¬ (b = i ∧ i ≤ a ∧ a < n) := by omega
    rw [if_neg c]
    exact h1 a b (by omega)
  · intro a b hab
    unfold columnUpdate
    have c : ¬ (b = i ∧ i ≤ a ∧ a < n) := by omega
    rw [if_neg c]
    exact h2 a b hab
  · intro a b ha hb hab
    rw [residual_columnUpdate]
    by_cases hai : a < i
    · rw [h3 a b ha hb (Or.inl hai), hup a hai]; ring
    · by_cases hbi : b < i
      · rw [h3 a b ha hb (Or.inr hbi), hup b hbi]; ring
      · rcases hab with h | h
        · have hae : a = i := by omega
          subst hae
          rw [hdiag, mul_comm, hmul b hb]; ring
        · have hbe : b = i := by omega
          subst hbe
          rw [hdiag, hmul a ha, residual_symm S L n b hS a b ha hb]; ring

end Column
/-! ### What a pass preserves, for semi-definite and definite input -/

section Tracks

open Finset

variable {R : Type} [LinearOrderedField R]

theorem isPDFrom_congr {n i : Nat} {M N : Nat → Nat → R} (h : IsPDFrom n i M)
    (hMN : ∀ a b, a < n → b < n → N a b = M a b) : IsPDFrom n i N := by
  intro x hx0 hx1
  rw [quadForm_congr n N M x x hMN (fun _ _ => rfl)]
  exact h x hx0 hx1

/-- With a non-zero diagonal element the pass is an elimination step on the
residual. -/
theorem residual_columnUpdate_of_ne_zero (S L : Nat → Nat → R) (n i : Nat)
    (hinv : CholeskyInv n S i L) (hi : i < n) (d : R)
    (hd : d * d = residual S L i i i) (hd0 : d ≠ 0) (a b : Nat) (ha : a < n) (hb : b < n) :
    residual S (columnUpdate n i d (residual S L i i) L) (i + 1) a b
      = residual S L i a b - (residual S L i i a / d) * (residual S L i i b / d) := by
  have hmul := columnUpdate_mul_diag S L n i hinv hi d hd (fun h => absurd h hd0)
  rw [residual_columnUpdate, ← hmul a ha, ← hmul b hb]
  field_simp

/-- Positive definite input: the pivot is positive, and the pass keeps the
invariant and the definiteness of the residual on the remaining indices. -/
theorem pd_step (sq : R → R) (hsq : ∀ x : R, 0 ≤ x → sq x * sq x = x)
    (S L : Nat → Nat → R) (n i : Nat) (hS : ∀ a b, a < n → b < n → S a b = S b a)
    (hi : i < n) (hinv : CholeskyInv n S i L) (hpd : IsPDFrom n i (residual S L i)) :
    0 < residual S L i i i
      ∧ CholeskyInv n S (i + 1)
        (columnUpdate n i (sq (max (residual S L i i i) 0)) (residual S L i i) L)
      ∧ IsPDFrom n (i + 1) (residual S
          (columnUpdate n i (sq (max (residual S L i i i) 0)) (residual S L i i) L)
          (i + 1)) := by
  have hp : 0 < residual S L i i i := isPDFrom_pivot_pos hpd hi
  have hmax : max (residual S L i i i) 0 = residual S L i i i := max_eq_left hp.le
  rw [hmax]
  have hd := hsq _ hp.le
  have hsym := residual_symm S L n i hS
  have hd0 : sq (residual S L i i i) ≠ 0 := by
    intro h0
    rw [h0, mul_zero] at hd
    exact absurd hd.symm (ne_of_gt hp)
  refine ⟨hp, choleskyInv_step S L n i hS hinv hi _ hd (fun h => absurd h hd0), ?_⟩
  exact isPDFrom_congr (isPDFrom_eliminate hpd hi hsym _ hd hd0) (fun a b ha hb =>
    residual_columnUpdate_of_ne_zero S L n i hinv hi _ hd hd0 a b ha hb)

/-- A positive pivot: the pass keeps the invariant and makes the new diagonal
element positive, the earlier ones being untouched. -/
theorem pos_step (sq : R → R) (hsq : ∀ x : R, 0 ≤ x → sq x * sq x = x)
    (hnn : ∀ x : R, 0 ≤ sq x)
    (S L : Nat → Nat → R) (n i : Nat) (hS : ∀ a b, a < n → b < n → S a b = S b a)
    (hi : i < n) (hinv : CholeskyInv n S i L) (hdiag : ∀ k, k < i → 0 < L k k)
    (hp : 0 < residual S L i i i) :
    CholeskyInv n S (i + 1)
        (columnUpdate n i (sq (max (residual S L i i i) 0)) (residual S L i i) L)
      ∧ ∀ k, k < i + 1 →
          0 < columnUpdate n i (sq (max (residual S L i i i) 0)) (residual S L i i) L k k := by
  have hmax : max (residual S L i i i) 0 = residual S L i i i := max_eq_left hp.le
  rw [hmax]
  have hd := hsq _ hp.le
  have hd0 : sq (residual S L i i i) ≠ 0 := by
    intro h0
    rw [h0, mul_zero] at hd
    exact absurd hd.symm (ne_of_gt hp)
  refine ⟨choleskyInv_step S L n i hS hinv hi _ hd (fun h => absurd h hd0), ?_⟩
  intro k hk
  unfold columnUpdate
  by_cases hki : k = i
  · have c : (k = i ∧ i ≤ k ∧ k < n) := by omega
    rw [if_pos c, if_pos hki]
    exact lt_of_le_of_ne (hnn _) (Ne.symm hd0)
  · have c : ¬ (k = i ∧ i ≤ k ∧ k < n) := fun h => hki h.1
    rw [if_neg c]
    exact hdiag k (by omega)

end Tracks
/-! ### The outer loop -/

section Rows

open Finset

variable {R : Type} [LinearOrderedField R]

/-- If a property of the elements guarantees the pivot requirement and is kept by
`columnUpdate`, the outer loop runs to its end and establishes it for `n`. -/
theorem rowLoop_ok_of_invariant (sq : R → R) (S : Matrix R) (flexible : Bool) (n : Nat)
    (T : Nat → (Nat → Nat → R) → Prop)
    (hstep : ∀ i L, i < n → T i L →
      (flexible = true ∨ 0 < residual S.elem L i i i)
        ∧ T (i + 1)
            (columnUpdate n i (sq (max (residual S.elem L i i i) 0))
              (residual S.elem L i i) L))
    (m : Nat) :
    ∀ (i : Nat) (r : Matrix R), i + m = n → T i r.elem →
      ∃ r1 : Matrix R, rowLoop sq max S flexible n (List.range' i m) r = .ok r1
        ∧ r1.rows = r.rows ∧ r1.columns = r.columns ∧ T n r1.elem := by
  induction m with
  | zero =>
    intro i r him hT
    have : i = n := by omega
    subst this
    exact ⟨r, rfl, rfl, rfl, hT⟩
  | succ m ih =>
    intro i r him hT
    have hi : i < n := by omega
    obtain ⟨hp, hT1⟩ := hstep i r.elem hi hT
    obtain ⟨r1, h1, h2, h3, h4⟩ := columnLoop_ok sq S flexible n i r hi hp
    rw [← h4] at hT1
    obtain ⟨r2, k1, k2, k3, k4⟩ := ih (i + 1) r1 (by omega) hT1
    refine ⟨r2, ?_, k2.trans h2, k3.trans h3, k4⟩
    simp only [List.range', rowLoop, h1]
    exact k1

/-- Without `flexible`, a run of the outer loop that reaches its end has met a
positive pivot in every pass; a property kept by `columnUpdate` under a positive
pivot therefore holds at the end. -/
theorem rowLoop_ok_imp (sq : R → R) (S : Matrix R) (n : Nat)
    (T : Nat → (Nat → Nat → R) → Prop)
    (hstep : ∀ i L, i < n → T i L → 0 < residual S.elem L i i i →
      T (i + 1)
        (columnUpdate n i (sq (max (residual S.elem L i i i) 0))
          (residual S.elem L i i) L))
    (m : Nat) :
    ∀ (i : Nat) (r r2 : Matrix R), i + m = n → T i r.elem →
      rowLoop sq max S false n (List.range' i m) r = .ok r2 → T n r2.elem := by
  induction m with
  | zero =>
    intro i r r2 him hT hrun
    have : i = n := by omega
    subst this
    simp only [List.range', rowLoop, Except.ok.injEq] at hrun
    rw [← hrun]
    exact hT
  | succ m ih =>
    intro i r r2 him hT hrun
    have hi : i < n := by omega
    by_cases hp : 0 < residual S.elem r.elem i i i
    · obtain ⟨r1, h1, _, _, h4⟩ := columnLoop_ok sq S false n i r hi (Or.inr hp)
      have hT1 := hstep i r.elem hi hT hp
      rw [← h4] at hT1
      simp only [List.range', rowLoop, h1] at hrun
      exact ih (i + 1) r1 r2 (by omega) hT1 hrun
    · have h1 := columnLoop_error sq S n i r hi hp
      simp only [List.range', rowLoop, h1] at hrun
      cases hrun

/-- The only error the body of the loop over `j` can raise. -/
theorem columnEntry_error (sq : R → R) (S : Matrix R) (flexible : Bool) (i j : Nat)
    (r : Matrix R) (e : String) (h : columnEntry sq max S flexible i j r = .error e) :
    e = "CholeskyDecomposition : input matrix is not positive definite" := by
  dsimp only [columnEntry] at h
  by_cases hij : i = j
  · rw [if_pos hij] at h
    by_cases hc : (flexible || decide
        (subtractProducts r i j (List.range i) (S.elem i j) > 0)) = true
    · rw [if_pos hc] at h; cases h
    · rw [if_neg hc] at h; exact (Except.error.inj h).symm
  · rw [if_neg hij] at h; cases h

/-- The only error the loop over `j` can raise. -/
theorem columnLoop_ok_or_error (sq : R → R) (S : Matrix R) (flexible : Bool) (i : Nat)
    (js : List Nat) :
    ∀ r : Matrix R, (∃ r1, columnLoop sq max S flexible i js r = .ok r1)
      ∨ columnLoop sq max S flexible i js r
          = .error "CholeskyDecomposition : input matrix is not positive definite" := by
  induction js with
  | nil => intro r; exact Or.inl ⟨r, rfl⟩
  | cons j js ih =>
    intro r
    cases hentry : columnEntry sq max S flexible i j r with
    | ok r1 =>
      simp only [columnLoop, hentry]
      exact ih r1
    | error e =>
      right
      simp only [columnLoop, hentry]
      rw [columnEntry_error sq S flexible i j r e hentry]

/-- The only error the outer loop can raise. -/
theorem rowLoop_ok_or_error (sq : R → R) (S : Matrix R) (flexible : Bool) (n : Nat)
    (is : List Nat) :
    ∀ r : Matrix R, (∃ r1, rowLoop sq max S flexible n is r = .ok r1)
      ∨ rowLoop sq max S flexible n is r
          = .error "CholeskyDecomposition : input matrix is not positive definite" := by
  induction is with
  | nil => intro r; exact Or.inl ⟨r, rfl⟩
  | cons i is ih =>
    intro r
    rcases columnLoop_ok_or_error sq S flexible i (List.range' i (n - i)) r with ⟨r1, h⟩ | h
    · simp only [rowLoop, h]
      exact ih r1
    · right
      simp only [rowLoop, h]

/-- On a square matrix the function is the outer loop on the zero matrix. -/
theorem CholeskyDecomposition_square (sq : R → R) (S : Matrix R) (flexible : Bool) (n : Nat)
    (hr : S.rows = n) (hc : S.columns = n) :
    CholeskyDecomposition sq max S flexible
      = rowLoop sq max S flexible n (List.range' 0 n) (Matrix.filled n n 0) := by
  unfold CholeskyDecomposition
  simp only [hr, hc, if_true, List.range_eq_range']

theorem CholeskyInv_zero (n : Nat) (S : Nat → Nat → R) :
    CholeskyInv n S 0 (fun _ _ => 0) :=
  ⟨fun _ _ _ => rfl, fun _ _ _ => rfl, fun a b _ _ h => by omega⟩

theorem residual_zero (S L : Nat → Nat → R) (a b : Nat) : residual S L 0 a b = S a b := by
  simp [residual]

/-- At the end of the outer loop the invariant says `L * transpose(L) = S`. -/
theorem choleskyInv_product_eq {n : Nat} {S L : Nat → Nat → R} (h : CholeskyInv n S n L)
    (a b : Nat) (ha : a < n) (hb : b < n) :
    ∑ k in range n, L a k * L b k = S a b := by
  have := h.2.2 a b ha hb (Or.inl ha)
  unfold residual at this
  exact (sub_eq_zero.mp this).symm

end Rows
/-! ### The decomposition of semi-definite and definite matrices -/

section Factor

open Finset

variable {R : Type} [LinearOrderedField R]

/-- The quadratic form of a product `L * transpose(L)` is a sum of squares. -/
theorem quadForm_of_product (n : Nat) (S L : Nat → Nat → R) (x : Nat → R)
    (h : ∀ a b, a < n → b < n → ∑ k in range n, L a k * L b k = S a b) :
    quadForm n S x = ∑ k in range n, (∑ a in range n, x a * L a k) ^ 2 := by
  rw [quadForm_congr n S (fun a b => ∑ k in range n, L a k * L b k) x x
    (fun a b ha hb => (h a b ha hb).symm) (fun _ _ => rfl)]
  unfold quadForm
  have e1 : ∀ a b, x a * (∑ k in range n, L a k * L b k) * x b
      = ∑ k in range n, (x a * L a k) * (x b * L b k) := by
    intro a b
    rw [Finset.mul_sum, Finset.sum_mul]
    apply Finset.sum_congr rfl
    intro k _
    ring
  have e2 : ∀ k, (∑ a in range n, x a * L a k) ^ 2
      = ∑ a in range n, ∑ b in range n, (x a * L a k) * (x b * L b k) := by
    intro k
    rw [pow_two, Finset.sum_mul_sum]
  simp only [e1, e2]
  calc ∑ a in range n, ∑ b in range n, ∑ k in range n, (x a * L a k) * (x b * L b k)
      = ∑ a in range n, ∑ k in range n, ∑ b in range n, (x a * L a k) * (x b * L b k) :=
        Finset.sum_congr rfl (fun a _ => Finset.sum_comm)
    _ = ∑ k in range n, ∑ a in range n, ∑ b in range n, (x a * L a k) * (x b * L b k) :=
        Finset.sum_comm

/-- A product `L * transpose(L)` with `L` lower triangular and positive on the
diagonal is positive definite. -/
theorem isPDFrom_of_product (n : Nat) (S L : Nat → Nat → R)
    (h : ∀ a b, a < n → b < n → ∑ k in range n, L a k * L b k = S a b)
    (hup : ∀ a b, a < b → L a b = 0) (hdiag : ∀ k, k < n → 0 < L k k) :
    IsPDFrom n 0 S := by
  intro x _ hx
  rw [quadForm_of_product n S L x h]
  have hnn : ∀ k ∈ range n, 0 ≤ (∑ a in range n, x a * L a k) ^ 2 := fun k _ => sq_nonneg _
  apply lt_of_le_of_ne (Finset.sum_nonneg hnn)
  intro h0
  have hz : ∀ k, k < n → ∑ a in range n, x a * L a k = 0 := by
    intro k hk
    have := (Finset.sum_eq_zero_iff_of_nonneg hnn).mp h0.symm k (mem_range.mpr hk)
    exact pow_eq_zero_iff (two_ne_zero) |>.mp this
  have hx0 : ∀ j a, n - j ≤ a → a < n → x a = 0 := by
    intro j
    induction j with
    | zero => intro a h1 h2; omega
    | succ j ih =>
      intro a h1 h2
      by_cases hlt : n - j ≤ a
      · exact ih a hlt h2
      · have hsingle : ∑ b in range n, x b * L b a = x a * L a a := by
          apply Finset.sum_eq_single a
          · intro b hb hba
            rcases Nat.lt_or_gt_of_ne hba with hlt1 | hgt
            · rw [hup b a hlt1, mul_zero]
            · rw [ih b (by omega) (mem_range.mp hb), zero_mul]
          · intro hna
            exact absurd (mem_range.mpr h2) hna
        have := hz a h2
        rw [hsingle] at this
        rcases mul_eq_zero.mp this with h3 | h3
        · exact h3
        · exact absurd h3 (ne_of_gt (hdiag a h2))
  obtain ⟨a, _, ha2, ha3⟩ := hx
  exact ha3 (hx0 n a (by omega) ha2)

/-- On a symmetric positive definite matrix the decomposition, with either value
of `flexible`, returns a lower triangular `L` with `L * transpose(L) = S`. -/
theorem cholesky_of_isPD (sq : R → R) (hsq : ∀ x : R, 0 ≤ x → sq x * sq x = x)
    (S : Matrix R) (flexible : Bool) (n : Nat) (hr : S.rows = n) (hc : S.columns = n)
    (hS : ∀ a b, a < n → b < n → S.elem a b = S.elem b a) (hpd : IsPDFrom n 0 S.elem) :
    ∃ L : Matrix R, CholeskyDecomposition sq max S flexible = .ok L
      ∧ L.rows = n ∧ L.columns = n ∧ CholeskyInv n S.elem n L.elem := by
  rw [CholeskyDecomposition_square sq S flexible n hr hc]
  obtain ⟨L, h1, h2, h3, h4⟩ := rowLoop_ok_of_invariant sq S flexible n
    (fun i L => CholeskyInv n S.elem i L ∧ IsPDFrom n i (residual S.elem L i))
    (fun i L hi hT =>
      have h := pd_step sq hsq S.elem L n i hS hi hT.1 hT.2
      ⟨Or.inr h.1, h.2⟩)
    n 0 (Matrix.filled n n 0) (Nat.zero_add n)
    ⟨CholeskyInv_zero n S.elem, isPDFrom_congr hpd (fun a b _ _ => residual_zero _ _ a b)⟩
  exact ⟨L, h1, h2, h3, h4.1⟩

/-- A successful decomposition with `flexible = false` exhibits the symmetric
input as positive definite. -/
theorem isPD_of_cholesky_ok (sq : R → R) (hsq : ∀ x : R, 0 ≤ x → sq x * sq x = x)
    (hnn : ∀ x : R, 0 ≤ sq x)
    (S L : Matrix R) (n : Nat) (hr : S.rows = n) (hc : S.columns = n)
    (hS : ∀ a b, a < n → b < n → S.elem a b = S.elem b a)
    (hrun : CholeskyDecomposition sq max S false = .ok L) : IsPDFrom n 0 S.elem := by
  rw [CholeskyDecomposition_square sq S false n hr hc] at hrun
  have h := rowLoop_ok_imp sq S n
    (fun i L => CholeskyInv n S.elem i L ∧ ∀ k, k < i → 0 < L k k)
    (fun i L hi hT hp => pos_step sq hsq hnn S.elem L n i hS hi hT.1 hT.2 hp)
    n 0 (Matrix.filled n n 0) L (Nat.zero_add n)
    ⟨CholeskyInv_zero n S.elem, fun k hk => absurd hk (Nat.not_lt_zero k)⟩ hrun
  exact isPDFrom_of_product n S.elem L.elem (fun a b ha hb => choleskyInv_product_eq h.1 a b ha hb)
    h.1.2.1 h.2

end Factor

end Theorems

end QuantLib

namespace Cholesky

/-! ### From natural-number indices to `Fin n` -/

theorem extend_val {R : Type} [Zero R] (n : Nat) (x : Fin n → R) (i : Fin n) :
    extend n x i.val = x i := by
  unfold extend
  rw [dif_pos i.isLt]

/-- Mathlib's quadratic form of the block is `QuantLib.quadForm`. -/
theorem dotProduct_mulVec_eq_quadForm (n : Nat) (M : QuantLib.Matrix ℝ) (x : Fin n → ℝ) :
    Matrix.dotProduct (star x) (Matrix.mulVec (toSquare n M) x)
      = QuantLib.quadForm n M.elem (extend n x) := by
  unfold QuantLib.quadForm
  rw [← Fin.sum_univ_eq_sum_range
    (fun a => ∑ b in Finset.range n, extend n x a * M.elem a b * extend n x b) n]
  unfold Matrix.dotProduct Matrix.mulVec Matrix.dotProduct
  apply Finset.sum_congr rfl
  intro i _
  rw [← Fin.sum_univ_eq_sum_range (fun b => extend n x i.val * M.elem i.val b * extend n x b) n,
    Finset.mul_sum]
  apply Finset.sum_congr rfl
  intro j _
  simp only [extend_val, toSquare, Matrix.of_apply, Pi.star_apply, star_trivial]
  ring

/-- Symmetry of the block, entry by entry. -/
theorem isSymm_iff (n : Nat) (M : QuantLib.Matrix ℝ) :
    (toSquare n M).IsSymm ↔ ∀ a b, a < n → b < n → M.elem a b = M.elem b a := by
  constructor
  · intro h a b ha hb
    have := h.apply ⟨a, ha⟩ ⟨b, hb⟩
    simpa [toSquare] using this.symm
  · intro h
    apply Matrix.IsSymm.ext
    intro i j
    simpa [toSquare] using h j.val i.val j.isLt i.isLt

/-- Mathlib's positive definiteness of the block is `QuantLib.IsPDFrom n 0`
together with symmetry. -/
theorem posDef_iff (n : Nat) (M : QuantLib.Matrix ℝ) :
    (toSquare n M).PosDef ↔
      (∀ a b, a < n → b < n → M.elem a b = M.elem b a) ∧ QuantLib.IsPDFrom n 0 M.elem := by
  constructor
  · rintro ⟨hH, hpos⟩
    refine ⟨(isSymm_iff n M).mp hH, ?_⟩
    intro x _ hx
    obtain ⟨a, _, ha, hxa⟩ := hx
    have hne : (fun i : Fin n => x i.val) ≠ 0 := by
      intro h0
      exact hxa (congrFun h0 ⟨a, ha⟩)
    have := hpos _ hne
    rw [dotProduct_mulVec_eq_quadForm] at this
    rw [QuantLib.quadForm_congr n M.elem M.elem x (extend n fun i : Fin n => x i.val)
      (fun _ _ _ _ => rfl) (fun a ha => (extend_val n (fun i : Fin n => x i.val) ⟨a, ha⟩).symm)]
    exact this
  · rintro ⟨hS, hpd⟩
    refine ⟨(isSymm_iff n M).mpr hS, ?_⟩
    intro x hx
    rw [dotProduct_mulVec_eq_quadForm]
    apply hpd
    · intro a ha; omega
    · obtain ⟨i, hi⟩ := Function.ne_iff.mp hx
      exact ⟨i.val, Nat.zero_le _, i.isLt, by rw [extend_val]; exact hi⟩

/-- The product `L * transpose(L)` of the blocks, entry by entry. -/
theorem mul_transpose_eq_iff (n : Nat) (L S : QuantLib.Matrix ℝ) :
    toSquare n L * (toSquare n L).transpose = toSquare n S ↔
      ∀ a b, a < n → b < n →
        ∑ k in Finset.range n, L.elem a k * L.elem b k = S.elem a b := by
  have key : ∀ i j : Fin n, (toSquare n L * (toSquare n L).transpose) i j
      = ∑ k in Finset.range n, L.elem i.val k * L.elem j.val k := by
    intro i j
    rw [Matrix.mul_apply,
      ← Fin.sum_univ_eq_sum_range (fun k => L.elem i.val k * L.elem j.val k) n]
    rfl
  constructor
  · intro h a b ha hb
    have := congrFun (congrFun h ⟨a, ha⟩) ⟨b, hb⟩
    rw [key] at this
    exact this
  · intro h
    ext i j
    rw [key]
    exact h i.val j.val i.isLt j.isLt

/-! ### The sample matrices -/

theorem sampleDefinite_posDef : (toSquare 2 (sampleDefinite ℝ)).PosDef := by
  rw [posDef_iff]
  constructor
  · intro a b ha hb
    interval_cases a <;> interval_cases b <;> simp [sampleDefinite]
  · intro x _ hx
    have e : QuantLib.quadForm 2 (sampleDefinite ℝ).elem x
        = (2 * x 0 + x 1) ^ 2 + 4 * x 1 ^ 2 := by
      simp [QuantLib.quadForm, sampleDefinite, Finset.sum_range_succ]
      ring
    rw [e]
    obtain ⟨a, _, ha, hxa⟩ := hx
    by_cases h1 : x 1 = 0
    · have h0 : x 0 ≠ 0 := by
        interval_cases a
        · exact hxa
        · exact absurd h1 hxa
      rw [h1]
      have : 0 < (2 * x 0) ^ 2 := by positivity
      simpa using this
    · have : 0 < x 1 ^ 2 := by positivity
      nlinarith [sq_nonneg (2 * x 0 + x 1)]

theorem sampleSingular_isSymm : (toSquare 2 (sampleSingular ℝ)).IsSymm := by
  rw [isSymm_iff]
  intro a b _ _
  rfl

/-- C8: for every square, symmetric, positive definite real matrix `S` and
either value of `flexible`, `CholeskyDecomposition(S, flexible)` succeeds and
returns a matrix `L` of the same size with `L * transpose(L) = S`. -/
theorem CholeskyDecomposition_posDef (S : QuantLib.Matrix ℝ) (flexible : Bool)
    (hsquare : S.rows = S.columns) (hpd : (toSquare S.rows S).PosDef) :
    ∃ L : QuantLib.Matrix ℝ,
      QuantLib.CholeskyDecomposition Real.sqrt max S flexible = .ok L
        ∧ L.rows = S.rows ∧ L.columns = S.rows
        ∧ toSquare S.rows L * (toSquare S.rows L).transpose = toSquare S.rows S := by
  obtain ⟨hS, hpd1⟩ := (posDef_iff S.rows S).mp hpd
  obtain ⟨L, h1, h2, h3, h4⟩ := QuantLib.cholesky_of_isPD Real.sqrt
    (fun x hx => Real.mul_self_sqrt hx) S flexible S.rows rfl hsquare.symm hS hpd1
  exact ⟨L, h1, h2, h3,
    (mul_transpose_eq_iff S.rows L S).mpr (fun a b ha hb => QuantLib.choleskyInv_product_eq h4 a b ha hb)⟩

/-- C8, instantiated at `[[4, 2], [2, 5]]` with `flexible = false`. -/
theorem CholeskyDecomposition_posDef_witness :
    (sampleDefinite ℝ).rows = (sampleDefinite ℝ).columns
      ∧ (toSquare (sampleDefinite ℝ).rows (sampleDefinite ℝ)).PosDef
      ∧ ∃ L : QuantLib.Matrix ℝ,
          QuantLib.CholeskyDecomposition Real.sqrt max (sampleDefinite ℝ) false = .ok L
            ∧ L.rows = (sampleDefinite ℝ).rows ∧ L.columns = (sampleDefinite ℝ).rows
            ∧ toSquare (sampleDefinite ℝ).rows L
                * (toSquare (sampleDefinite ℝ).rows L).transpose
              = toSquare (sampleDefinite ℝ).rows (sampleDefinite ℝ) :=
  ⟨rfl, sampleDefinite_posDef,
    CholeskyDecomposition_posDef (sampleDefinite ℝ) false rfl sampleDefinite_posDef⟩

/-- C9: with `flexible = false`, for every square symmetric real matrix `S`,
`CholeskyDecomposition(S, false)` fails with the error "input matrix is not
positive definite" if and only if `S` is not positive definite. -/
theorem CholeskyDecomposition_error_iff_not_posDef (S : QuantLib.Matrix ℝ)
    (hsquare : S.rows = S.columns) (hsym : (toSquare S.rows S).IsSymm) :
    QuantLib.CholeskyDecomposition Real.sqrt max S false
        = .error "CholeskyDecomposition : input matrix is not positive definite"
      ↔ ¬ (toSquare S.rows S).PosDef := by
  have hS := (isSymm_iff S.rows S).mp hsym
  constructor
  · intro herr hpd
    obtain ⟨L, h1, _⟩ := QuantLib.cholesky_of_isPD Real.sqrt
      (fun x hx => Real.mul_self_sqrt hx) S false S.rows rfl hsquare.symm hS
      ((posDef_iff S.rows S).mp hpd).2
    rw [herr] at h1
    cases h1
  · intro hnpd
    have hrun := QuantLib.rowLoop_ok_or_error Real.sqrt S false S.rows
      (List.range' 0 S.rows) (QuantLib.Matrix.filled S.rows S.rows 0)
    rw [← QuantLib.CholeskyDecomposition_square Real.sqrt S false S.rows rfl hsquare.symm]
      at hrun
    rcases hrun with ⟨L, hL⟩ | herr
    · exfalso
      apply hnpd
      rw [posDef_iff]
      exact ⟨hS, QuantLib.isPD_of_cholesky_ok Real.sqrt (fun x hx => Real.mul_self_sqrt hx)
        Real.sqrt_nonneg S L S.rows rfl hsquare.symm hS hL⟩
    · exact herr

/-- C9, instantiated at the singular matrix `[[1, 1], [1, 1]]`. -/
theorem CholeskyDecomposition_error_iff_not_posDef_witness :
    (sampleSingular ℝ).rows = (sampleSingular ℝ).columns
      ∧ (toSquare (sampleSingular ℝ).rows (sampleSingular ℝ)).IsSymm
      ∧ (QuantLib.CholeskyDecomposition Real.sqrt max (sampleSingular ℝ) false
            = .error "CholeskyDecomposition : input matrix is not positive definite"
          ↔ ¬ (toSquare (sampleSingular ℝ).rows (sampleSingular ℝ)).PosDef) :=
  ⟨rfl, sampleSingular_isSymm,
    CholeskyDecomposition_error_iff_not_posDef (sampleSingular ℝ) rfl sampleSingular_isSymm⟩

end Cholesky

namespace QuantLib

/-! ### The failures of `CholeskyDecomposition` -/

section Failures

variable {R : Type} [LinearOrderedField R]

/-- With `flexible = true` the body of the loop over `j` raises no error. -/
theorem columnEntry_flexible_ok (sq : R → R) (mx : R → R → R) (S : Matrix R) (i j : Nat)
    (r : Matrix R) : ∃ r1 : Matrix R, columnEntry sq mx S true i j r = .ok r1 := by
  unfold columnEntry
  by_cases hij : i = j
  · simp only [if_pos hij, Bool.true_or, if_true]
    exact ⟨_, rfl⟩
  · simp only [if_neg hij]
    exact ⟨_, rfl⟩

/-- With `flexible = true` the loop over `j` raises no error. -/
theorem columnLoop_flexible_ok (sq : R → R) (mx : R → R → R) (S : Matrix R) (i : Nat)
    (js : List Nat) :
    ∀ r : Matrix R, ∃ r1 : Matrix R, columnLoop sq mx S true i js r = .ok r1 := by
  induction js with
  | nil => intro r; exact ⟨r, rfl⟩
  | cons j js ih =>
    intro r
    obtain ⟨r1, h1⟩ := columnEntry_flexible_ok sq mx S i j r
    obtain ⟨r2, h2⟩ := ih r1
    exact ⟨r2, by simp only [columnLoop, h1, h2]⟩

/-- With `flexible = true` the outer loop raises no error. -/
theorem rowLoop_flexible_ok (sq : R → R) (mx : R → R → R) (S : Matrix R) (n : Nat)
    (is : List Nat) :
    ∀ r : Matrix R, ∃ r1 : Matrix R, rowLoop sq mx S true n is r = .ok r1 := by
  induction is with
  | nil => intro r; exact ⟨r, rfl⟩
  | cons i is ih =>
    intro r
    obtain ⟨r1, h1⟩ := columnLoop_flexible_ok sq mx S i (List.range' i (n - i)) r
    obtain ⟨r2, h2⟩ := ih r1
    exact ⟨r2, by simp only [rowLoop, h1, h2]⟩

/-- C11: `CholeskyDecomposition(S, flexible)` fails with the error "input matrix
is not a square matrix" for every `S` whose row count differs from its column
count, whatever `flexible` is; with `flexible = true` this is the only failure:
a square `S` is decomposed without error, and any error raised is this one, on
a matrix that is not square. -/
theorem CholeskyDecomposition_not_square (sq : R → R) (mx : R → R → R) (S : Matrix R)
    (flexible : Bool) :
    (S.rows ≠ S.columns →
        CholeskyDecomposition sq mx S flexible
          = .error "CholeskyDecomposition : input matrix is not a square matrix")
      ∧ (S.rows = S.columns → ∃ L : Matrix R, CholeskyDecomposition sq mx S true = .ok L)
      ∧ (∀ e : String, CholeskyDecomposition sq mx S true = .error e →
          S.rows ≠ S.columns
            ∧ e = "CholeskyDecomposition : input matrix is not a square matrix") := by
  have hsq : S.rows = S.columns → ∃ L : Matrix R,
      CholeskyDecomposition sq mx S true = .ok L := by
    intro h
    obtain ⟨L, hL⟩ := rowLoop_flexible_ok sq mx S S.rows (List.range S.rows)
      (Matrix.filled S.rows S.rows 0)
    refine ⟨L, ?_⟩
    unfold CholeskyDecomposition
    simp only [if_pos h]
    exact hL
  have hne : ∀ f : Bool, S.rows ≠ S.columns →
      CholeskyDecomposition sq mx S f
        = .error "CholeskyDecomposition : input matrix is not a square matrix" := by
    intro f h
    unfold CholeskyDecomposition
    simp only [if_neg h]
  refine ⟨hne flexible, hsq, ?_⟩
  intro e he
  by_cases h : S.rows = S.columns
  · obtain ⟨L, hL⟩ := hsq h
    rw [hL] at he
    cases he
  · refine ⟨h, ?_⟩
    rw [hne true h] at he
    exact (Except.error.inj he).symm

/-- C11, instantiated at a matrix with 2 rows and 3 columns and
`flexible = false`. -/
theorem CholeskyDecomposition_not_square_witness :
    sampleRectangular.rows ≠ sampleRectangular.columns
      ∧ CholeskyDecomposition (fun x : ℚ => x) max sampleRectangular false
          = .error "CholeskyDecomposition : input matrix is not a square matrix" :=
  have h : sampleRectangular.rows ≠ sampleRectangular.columns := by decide
  ⟨h, (CholeskyDecomposition_not_square (fun x : ℚ => x) max sampleRectangular false).1 h⟩

end Failures

/-! ### Comparison of day counters -/

section DayCounters

variable {Date Time H : Type}

/-- The comparison returns `true` exactly when the two names are equal. -/
theorem operatorEq_iff (arrow : H → DayCounter Date Time) (h1 h2 : H) :
    DayCounter.operatorEq arrow h1 h2 = true ↔ (arrow h1).name = (arrow h2).name := by
  unfold DayCounter.operatorEq
  exact beq_iff_eq

/-- C12: for every pair of day-counter handles `h1`, `h2`, `operator==(h1, h2)`
is true if and only if `h1->name()` equals `h2->name()`; consequently the
comparison is reflexive, symmetric and transitive. -/
theorem dayCounter_operatorEq_equivalence (arrow : H → DayCounter Date Time)
    (h1 h2 h3 : H) :
    (DayCounter.operatorEq arrow h1 h2 = true ↔ (arrow h1).name = (arrow h2).name)
      ∧ DayCounter.operatorEq arrow h1 h1 = true
      ∧ (DayCounter.operatorEq arrow h1 h2 = true →
          DayCounter.operatorEq arrow h2 h1 = true)
      ∧ (DayCounter.operatorEq arrow h1 h2 = true →
          DayCounter.operatorEq arrow h2 h3 = true →
          DayCounter.operatorEq arrow h1 h3 = true) := by
  refine ⟨operatorEq_iff arrow h1 h2, ?_, ?_, ?_⟩
  · rw [operatorEq_iff]
  · intro h
    rw [operatorEq_iff] at h ⊢
    exact h.symm
  · intro h12 h23
    rw [operatorEq_iff] at h12 h23 ⊢
    exact h12.trans h23

/-- C12, instantiated: two day counters that count differently under one name
compare equal in both directions, and the chain first, second, first closes. -/
theorem dayCounter_operatorEq_equivalence_witness :
    DayCounter.operatorEq sampleDayCounters 0 1 = true
      ∧ DayCounter.operatorEq sampleDayCounters 1 0 = true
      ∧ DayCounter.operatorEq sampleDayCounters 0 0 = true
      ∧ DayCounter.operatorEq sampleDayCounters 0 2 = false :=
  have h01 : DayCounter.operatorEq sampleDayCounters 0 1 = true := by decide
  have key := dayCounter_operatorEq_equivalence sampleDayCounters 0 1 0
  ⟨h01, key.2.2.1 h01, key.2.2.2 h01 (key.2.2.1 h01), by decide⟩

end DayCounters

end QuantLib
